import Mathlib

/-!
Verification development for the citrea block-processing core.

Part 1 embeds the Citrea EVM post-execution hook
(`module-system/module-implementations/sov-evm/src/evm/handler.rs`):
the L1-fee charge in `post_execution_output`, the state-diff size
computation `calc_diff_size`, and `decrease_caller_balance`.

Part 2 models the full-node runner, storage manager and ledger store
exercised by `crates/fullnode/tests/runner_reorg_tests.rs`; their code is
not part of the sources at hand, so those definitions are modelled from
the specification (each is marked `Modelled from the spec:`).
-/

/-- Addresses are modelled as natural numbers; only equality of addresses
matters to `calc_diff_size` and `decrease_caller_balance`. -/
abbrev EvmAddress := Nat

/-- The journal entries inspected by `calc_diff_size` (handler.rs, the
`match entry` arms). Every revm entry kind that falls into the `_ => {}`
arm is collapsed into `other`. -/
inductive JEntry where
  | nonceChange (address : EvmAddress)
  | balanceTransfer (source : EvmAddress) (dest : EvmAddress)
  | storageChange (address : EvmAddress) (key : Nat)
  | codeChange (address : EvmAddress)
  | accountCreated (address : EvmAddress)
  | accountDestroyed (address : EvmAddress)
  | other
  deriving DecidableEq, Repr

/-- The per-account accumulator `AccountChange` of `calc_diff_size`.
`storage_changes` is a `HashSet<&U256>`; it is modelled as a
duplicate-free list of keys in insertion order. -/
structure AccountChange where
  created : Bool := false
  destroyed : Bool := false
  nonce_changed : Bool := false
  code_changed : Bool := false
  balance_changed : Bool := false
  storage_changes : List Nat := []
  deriving DecidableEq, Repr

/-- Insertion into the `storage_changes` set: a no-op when the key is
already present, mirroring `HashSet::insert`. -/
def insertKey (l : List Nat) (k : Nat) : List Nat :=
  if k ∈ l then l else l ++ [k]

/-- The `account_changes : HashMap<&Address, AccountChange>` map, modelled
as an association list with unique keys in insertion order. -/
abbrev ChangeMap := List (EvmAddress × AccountChange)

/-- Lookup in the change map (`HashMap::get`). -/
def lookupChange (m : ChangeMap) (a : EvmAddress) : Option AccountChange :=
  match m with
  | [] => none
  | (b, c) :: rest => if b = a then some c else lookupChange rest a

/-- The `entry(address).or_default()` followed by a mutation: modify the
existing entry in place, or append a freshly defaulted one. -/
def upsert (m : ChangeMap) (a : EvmAddress) (f : AccountChange → AccountChange) :
    ChangeMap :=
  match m with
  | [] => [(a, f {})]
  | (b, c) :: rest => if b = a then (b, f c) :: rest else (b, c) :: upsert rest a f

/-- `HashMap::remove` on the change map. -/
def eraseChange : ChangeMap → EvmAddress → ChangeMap
  | [], _ => []
  | (b, c) :: rest, a => if b = a then eraseChange rest a else (b, c) :: eraseChange rest a

/-- One iteration of the `for entry in &journal` loop of `calc_diff_size`. -/
def stepEntry (m : ChangeMap) (e : JEntry) : ChangeMap :=
  match e with
  | .nonceChange a => upsert m a (fun c => { c with nonce_changed := true })
  | .balanceTransfer s d =>
      upsert (upsert m s (fun c => { c with balance_changed := true })) d
        (fun c => { c with balance_changed := true })
  | .storageChange a k =>
      upsert m a (fun c => { c with storage_changes := insertKey c.storage_changes k })
  | .codeChange a => upsert m a (fun c => { c with code_changed := true })
  | .accountCreated a =>
      upsert m a (fun c => { c with created := true, nonce_changed := true })
  | .accountDestroyed a =>
      match lookupChange m a with
      | some c =>
          if c.created then eraseChange m a
          else upsert m a (fun c => { c with destroyed := true })
      | none => upsert m a (fun c => { c with destroyed := true })
  | .other => m

/-- The accumulated change map after the whole journal loop. -/
def accountChangesOf (j : List JEntry) : ChangeMap :=
  j.foldl stepEntry []

/-- The parts of the revm database and journaled state that
`calc_diff_size` reads for sizing: `state[addr].storage.len()`,
the code obtained through `db.basic` / `code_by_hash` (its length; `none`
when `basic` reports no account), and `state[addr].info.code` (its
length; `none` triggers only the warning branch and adds nothing). -/
structure EvmDb where
  stateStorageLen : EvmAddress → Nat
  dbCodeLen : EvmAddress → Option Nat
  stateCodeLen : EvmAddress → Option Nat

/-- Byte size of an `Address` (20 bytes). -/
def sizeOfAddress : Nat := 20

/-- Byte size of a `U256` (32 bytes). -/
def sizeOfU256 : Nat := 32

/-- Byte size of a `B256` (32 bytes). -/
def sizeOfB256 : Nat := 32

/-- Byte size of a `u64` (8 bytes). -/
def sizeOfU64 : Nat := 8

/-- `slot_size = 2 * size_of::<U256>()`: key plus value. -/
def slotSize : Nat := 2 * sizeOfU256

/-- Contribution of one `(addr, account)` pair to `diff_size` in the final
loop of `calc_diff_size`. -/
def changeSize (db : EvmDb) (a : EvmAddress) (c : AccountChange) : Nat :=
  sizeOfAddress +
    (if c.destroyed then
      slotSize * db.stateStorageLen a + sizeOfU64 + sizeOfU256 + sizeOfB256 +
        (match db.dbCodeLen a with
         | some n => n
         | none => 0)
    else
      (if c.nonce_changed then sizeOfU64 else 0) +
        (if c.balance_changed then sizeOfU256 else 0) +
        slotSize * c.storage_changes.length +
        (if c.code_changed then
          sizeOfB256 +
            (match db.stateCodeLen a with
             | some n => n
             | none => 0)
        else 0))

/-- The handler's `calc_diff_size`, applied to one journal (the caller
passes the last journal of the journaled state). -/
def calc_diff_size (db : EvmDb) (journal : List JEntry) : Nat :=
  (accountChangesOf journal).foldl (fun acc p => acc + changeSize db p.1 p.2) 0

/-- The outcome marker returned by `decrease_caller_balance` on
insufficient balance. -/
inductive InstrResult where
  | outOfFunds
  deriving DecidableEq, Repr

/-- The EVM error raised by the hook; `custom n` stands for
`EVMError::Custom("Not enought funds for L1 fee: n")`. -/
inductive EvmHandlerError where
  | custom (fee : Nat)
  deriving DecidableEq, Repr

/-- The slice of the revm `Context` that the hook reads and writes: the
L1 fee rate from the external context, the caller's balance in the
journaled state, the journal stack, and the sizing view of the database.
Account loading (`load_account`) is modelled as total. -/
structure EvmContext where
  l1_fee_rate : Nat
  callerBalance : Nat
  journals : List (List JEntry)
  db : EvmDb

/-- `U256::checked_sub`: `none` exactly when the subtrahend exceeds the
minuend, so the subtraction never wraps below zero. -/
def checkedSub (x y : Nat) : Option Nat :=
  if y ≤ x then some (x - y) else none

/-- The handler's `decrease_caller_balance`: subtract `amount` from the
caller's balance with `checked_sub`; report `OutOfFunds` and leave the
balance untouched when it does not suffice. -/
def decrease_caller_balance (ctx : EvmContext) (amount : Nat) :
    Option InstrResult × EvmContext :=
  match checkedSub ctx.callerBalance amount with
  | none => (some .outOfFunds, ctx)
  | some nb => (none, { ctx with callerBalance := nb })

/-- The last journal (`journaled_state.journal.last().cloned().unwrap_or(vec![])`). -/
def lastJournal (ctx : EvmContext) : List JEntry :=
  (ctx.journals.getLast?).getD []

/-- `CitreaHandler::post_execution_output`: when the interpreter result is
not an error, charge `l1_fee = diff_size * l1_fee_rate` to the caller,
failing with a custom EVM error when the balance is insufficient; then
fall through to the mainnet output (modelled as returning the resulting
context). `resultIsError` is `result.interpreter_result().is_error()`. -/
def post_execution_output (ctx : EvmContext) (resultIsError : Bool) :
    Except EvmHandlerError EvmContext :=
  if !resultIsError then
    let diff_size := calc_diff_size ctx.db (lastJournal ctx)
    let l1_fee := diff_size * ctx.l1_fee_rate
    match decrease_caller_balance ctx l1_fee with
    | (some _, _) => .error (.custom l1_fee)
    | (none, ctx2) => .ok ctx2
  else
    .ok ctx

/-- Predicate singling out journal entries that mention only the address
`a` (and can occur between an account's creation and destruction without
touching other accounts); `accountDestroyed` is excluded. -/
def touchesOnly (a : EvmAddress) : JEntry → Bool
  | .nonceChange b => b == a
  | .balanceTransfer s d => s == a && d == a
  | .storageChange b _ => b == a
  | .codeChange b => b == a
  | .accountCreated b => b == a
  | .accountDestroyed _ => false
  | .other => true

/-- A sizing view of the database with no storage and no code anywhere,
used for concrete evaluations. -/
def dbEmpty : EvmDb :=
  { stateStorageLen := fun _ => 0, dbCodeLen := fun _ => none,
    stateCodeLen := fun _ => none }

/-- A concrete context used to instantiate the handler theorems: fee rate
2, caller balance 10, an empty journal stack. -/
def ctxEmptyJournal : EvmContext :=
  { l1_fee_rate := 2, callerBalance := 10, journals := [], db := dbEmpty }

/-- A concrete context whose last journal changes one nonce, so the diff
size is 28 bytes and the L1 fee (rate 2) is 56, above the balance 10. -/
def ctxNonceJournal : EvmContext :=
  { l1_fee_rate := 2, callerBalance := 10,
    journals := [[JEntry.nonceChange 1]], db := dbEmpty }

/-- A blob: opaque payload bytes, modelled as a list of naturals. -/
abbrev Blob := List Nat

/-- Modelled from the spec: the state root produced by the opaque
deterministic STF. The runner sources are absent, so the STF (`HashStf`
in the tests) is taken as the free injective transition that records the
genesis parameters and every applied blob; distinct blob histories then
yield distinct roots, which is how the tests use the hash STF. -/
abbrev StateRoot := List Blob

/-- Modelled from the spec: `apply(priorRoot, blobs, validityCondition) ->
newRoot` of the State Transition Engine, in the free injective form. The
validity condition is defaulted everywhere in the tests and is omitted. -/
def stf_apply (priorRoot : StateRoot) (blobs : List Blob) : StateRoot :=
  priorRoot ++ blobs

/-- Sequential STF application over a list of per-block blob batches,
mirroring the test helper `get_result_from_blocks`. -/
def stf_fold (root : StateRoot) (batches : List (List Blob)) : StateRoot :=
  batches.foldl stf_apply root

/-- Modelled from the spec: a DA block as the Runner sees it — height,
hash, parent hash and ordered blobs (`MockBlock` in the tests). -/
structure DaBlock where
  height : Nat
  bhash : Nat
  parentHash : Nat
  blobs : List Blob
  deriving DecidableEq, Repr

/-- Modelled from the spec: one DA-layer view, answering
`getBlockAt(height) -> Block | Pending`; a reorg is expressed by a later
view returning a different block for a previously-returned height. -/
abbrev DaChain := Nat → Option DaBlock

/-- Modelled from the spec: a pending snapshot of the Storage Manager
forest — height, block hash and resulting state root. -/
structure Snapshot where
  height : Nat
  bhash : Nat
  root : StateRoot
  deriving DecidableEq, Repr

/-- Modelled from the spec: the fatal error classes of the Runner loop
that the claims mention. -/
inductive RunnerErr where
  | FinalityViolation
  | MissingBlock
  | Timeout
  deriving DecidableEq, Repr

/-- Modelled from the spec: the Runner's state — configuration (finality
confirmation depth, DA retry bound), genesis root, the ChainIndex, the
pending snapshot list (oldest first), the last committed height, the
Ledger Store's append-only commit log and head slot, the last applied
height, and the consecutive DA-miss counter. -/
structure RunnerState where
  finalityDepth : Nat
  waitAttempts : Nat
  genesisRoot : StateRoot
  chainIndex : List (Nat × Nat)
  snapshots : List Snapshot
  committedHeight : Nat
  ledger : List (Nat × StateRoot)
  headSlot : Option (Nat × Nat × StateRoot)
  lastApplied : Nat
  misses : Nat
  deriving DecidableEq, Repr

/-- ChainIndex lookup: the accepted block hash at a height, if any. -/
def ciLookup (ci : List (Nat × Nat)) (h : Nat) : Option Nat :=
  match ci with
  | [] => none
  | (a, v) :: rest => if a = h then some v else ciLookup rest h

/-- ChainIndex update: overwrite the entry at a height or append it. -/
def ciSet (ci : List (Nat × Nat)) (h v : Nat) : List (Nat × Nat) :=
  match ci with
  | [] => [(h, v)]
  | (a, w) :: rest => if a = h then (a, v) :: rest else (a, w) :: ciSet rest h v

/-- Modelled from the spec: `get_state_root()` returns the root of the
current canonical tip snapshot (pending or finalized); before any commit
or apply it is the genesis root. -/
def get_state_root (s : RunnerState) : StateRoot :=
  match s.snapshots.getLast? with
  | some sn => sn.root
  | none =>
      match s.headSlot with
      | some (_, _, r) => r
      | none => s.genesisRoot

/-- Modelled from the spec: the commit scan — while the oldest pending
snapshot's height satisfies the finality rule (depth many confirmations
behind the last applied height), commit it to the Ledger Store and
advance the head slot. Structural recursion over the pending list. -/
def commitScanGo (s : RunnerState) : List Snapshot → RunnerState
  | [] => { s with snapshots := [] }
  | sn :: rest =>
      if sn.height + s.finalityDepth ≤ s.lastApplied then
        commitScanGo
          { s with
            committedHeight := sn.height,
            ledger := s.ledger ++ [(sn.height, sn.root)],
            headSlot := some (sn.height, sn.bhash, sn.root) }
          rest
      else
        { s with snapshots := sn :: rest }

/-- The commit scan run on the state's own pending list. -/
def commitScan (s : RunnerState) : RunnerState :=
  commitScanGo s s.snapshots

/-- Modelled from the spec: apply — call the STF with the canonical tip
root and the block's blobs, materialize the new pending snapshot, update
the ChainIndex and the last applied height, then run the commit scan. -/
def applyBlock (s : RunnerState) (b : DaBlock) : RunnerState :=
  commitScan
    { s with
      snapshots := s.snapshots ++ [⟨b.height, b.bhash, stf_apply (get_state_root s) b.blobs⟩],
      chainIndex := ciSet s.chainIndex b.height b.bhash,
      lastApplied := b.height }

/-- Modelled from the spec: the divergence check — the fetched block's
hash is compared against any ChainIndex entry at its height, and its
parent linkage against the entry at the height below. -/
def divergesFrom (s : RunnerState) (b : DaBlock) : Bool :=
  (match ciLookup s.chainIndex b.height with
   | some v => decide (v ≠ b.bhash)
   | none => false)
  || (if b.height ≤ 1 then false
      else
        match ciLookup s.chainIndex (b.height - 1) with
        | some pv => decide (pv ≠ b.parentHash)
        | none => false)

/-- Modelled from the spec: the LCA walk of the reorg state machine —
from below the new block, walk toward lower heights comparing the new
chain view against the ChainIndex; the first agreeing height is the LCA,
and height 0 (genesis) agrees by construction. -/
def findLCA (view : DaChain) (ci : List (Nat × Nat)) : Nat → Nat
  | 0 => 0
  | i + 1 =>
      match view (i + 1), ciLookup ci (i + 1) with
      | some b, some v => if b.bhash = v then i + 1 else findLCA view ci i
      | _, _ => findLCA view ci i

/-- Modelled from the spec: recovery replay — re-fetch the blocks for
heights LCA+1 up to the new tip from the (post-reorg) DA view and apply
the STF sequentially from the LCA snapshot. -/
def replayGo (view : DaChain) : Nat → Nat → RunnerState → Except RunnerErr RunnerState
  | 0, _, s => .ok s
  | k + 1, h, s =>
      match view h with
      | none => .error .MissingBlock
      | some b => replayGo view k (h + 1) (applyBlock s b)

/-- Modelled from the spec: one iteration of `run()` against one DA view.
The block at `lastApplied + 1` is fetched; a miss counts against the
bounded retry budget and exceeding it is a fatal timeout. A fetched block
that diverges from the ChainIndex triggers the reorg state machine: an
LCA at or below the last finalized height is a fatal finality violation,
otherwise the pending snapshots and ChainIndex entries above the LCA are
discarded and heights LCA+1 to the new tip are replayed. A matching
block is applied directly. -/
def runnerStep (view : DaChain) (s : RunnerState) : Except RunnerErr RunnerState :=
  match view (s.lastApplied + 1) with
  | none =>
      if s.waitAttempts < s.misses + 1 then .error .Timeout
      else .ok { s with misses := s.misses + 1 }
  | some b =>
      let s1 := { s with misses := 0 }
      if divergesFrom s1 b then
        let lca := findLCA view s1.chainIndex (b.height - 1)
        if lca ≤ s1.committedHeight then .error .FinalityViolation
        else
          replayGo view (b.height - lca) (lca + 1)
            { s1 with
              snapshots := s1.snapshots.filter (fun sn => decide (sn.height ≤ lca)),
              chainIndex := s1.chainIndex.filter (fun p => decide (p.1 ≤ lca)),
              lastApplied := lca }
      else
        .ok (applyBlock s1 b)

/-- Modelled from the spec: the `run()` loop, driven by the finite list
of DA views it consumes (one fetch per view); it stops early on any
fatal error. -/
def runnerRun (views : List DaChain) (s : RunnerState) : Except RunnerErr RunnerState :=
  match views with
  | [] => .ok s
  | v :: rest =>
      match runnerStep v s with
      | .error e => .error e
      | .ok s2 => runnerRun rest s2

/-- Modelled from the spec: the initial runner state for
`InitVariant::Genesis(genesisParams)` — nothing applied, nothing
committed, an empty ledger and index. -/
def initState (genesisParams : Blob) (depth attempts : Nat) : RunnerState :=
  { finalityDepth := depth, waitAttempts := attempts,
    genesisRoot := [genesisParams],
    chainIndex := [], snapshots := [], committedHeight := 0,
    ledger := [], headSlot := none, lastApplied := 0, misses := 0 }

/-- A straight chain carrying one blob per block at heights 1 to the
number of blobs, with the block hash equal to the height, as in the
tests' `MockBlockHeader::from_height`. -/
def chainOfBlobs (bs : List Blob) : DaChain := fun h =>
  if h = 0 then none
  else
    match bs[h - 1]? with
    | some blob => some ⟨h, h, h - 1, [blob]⟩
    | none => none

/-- Closed form of the runner state after syncing the first `k` blocks of
a straight chain under instant finality (depth 0). -/
def stateAfter (g : Blob) (w : Nat) (bs : List Blob) (k : Nat) : RunnerState :=
  { finalityDepth := 0, waitAttempts := w, genesisRoot := [g],
    chainIndex := (List.range' 1 k).map (fun i => (i, i)),
    snapshots := [],
    committedHeight := k,
    ledger := (List.range' 1 k).map (fun i => (i, g :: bs.take i)),
    headSlot := if k = 0 then none else some (k, k, g :: bs.take k),
    lastApplied := k, misses := 0 }

/-- Genesis parameters of the reorg test (`vec![1, 2, 3, 4, 5]`). -/
def gparams : Blob := [1, 2, 3, 4, 5]

/-- Main-chain blob A at height 1 (`vec![1, 1, 1, 1]`). -/
def blobA : Blob := [1, 1, 1, 1]

/-- Main-chain blob B at height 2 (`vec![2, 2, 2, 2]`). -/
def blobB : Blob := [2, 2, 2, 2]

/-- Main-chain blob C at height 3 (`vec![3, 3, 3, 3]`). -/
def blobC : Blob := [3, 3, 3, 3]

/-- Main-chain blob D at height 4 (`vec![4, 4, 4, 4]`). -/
def blobD : Blob := [4, 4, 4, 4]

/-- Fork blob X, replacing height 3 (`vec![13, 13, 13, 13]`). -/
def blobX : Blob := [13, 13, 13, 13]

/-- Fork blob Y, replacing height 4 (`vec![14, 14, 14, 14]`). -/
def blobY : Blob := [14, 14, 14, 14]

/-- Fork blob Z at height 5 (`vec![15, 15, 15, 15]`). -/
def blobZ : Blob := [15, 15, 15, 15]

/-- The main chain of the reorg test: blobs A, B, C, D at heights 1 to 4. -/
def mainChainView : DaChain := fun h =>
  match h with
  | 1 => some ⟨1, 1, 0, [blobA]⟩
  | 2 => some ⟨2, 2, 1, [blobB]⟩
  | 3 => some ⟨3, 3, 2, [blobC]⟩
  | 4 => some ⟨4, 4, 3, [blobD]⟩
  | _ => none

/-- The post-fork chain: the `PlannedFork::new(5, 2, fork_blobs)` of the
test keeps heights 1 and 2 and replaces heights 3 to 5 with X, Y, Z
(fresh block hashes 103 to 105). -/
def forkChainView : DaChain := fun h =>
  match h with
  | 1 => some ⟨1, 1, 0, [blobA]⟩
  | 2 => some ⟨2, 2, 1, [blobB]⟩
  | 3 => some ⟨3, 103, 2, [blobX]⟩
  | 4 => some ⟨4, 104, 103, [blobY]⟩
  | 5 => some ⟨5, 105, 104, [blobZ]⟩
  | _ => none

/-- The DA views consumed in the reorg scenario: the main chain for the
first four fetches, then the forked chain when height 5 is fetched. -/
def reorgViews : List DaChain :=
  [mainChainView, mainChainView, mainChainView, mainChainView, forkChainView]

/-- The reorg scenario run: finality depth 4, wait attempts 2, genesis
`gparams`, as in `test_simple_reorg_case`. -/
def reorgRun : Except RunnerErr RunnerState :=
  runnerRun reorgViews (initState gparams 4 2)

/-- A runner state that has already committed heights 1 and 2 under
instant finality, used to instantiate the finality-violation theorem. -/
def stateCommitted2 : RunnerState :=
  { finalityDepth := 0, waitAttempts := 2, genesisRoot := [[1]],
    chainIndex := [(1, 1), (2, 2)], snapshots := [],
    committedHeight := 2,
    ledger := [(1, [[1], [9]]), (2, [[1], [9], [8]])],
    headSlot := some (2, 2, [[1], [9], [8]]),
    lastApplied := 2, misses := 0 }

/-- A DA view that forks below the committed height of
`stateCommitted2`: height 2 is replaced (hash 102), so the only common
ancestor with the ChainIndex is height 1. -/
def forkBelowFinal : DaChain := fun h =>
  match h with
  | 1 => some ⟨1, 1, 0, [[9]]⟩
  | 2 => some ⟨2, 102, 1, [[7]]⟩
  | 3 => some ⟨3, 103, 102, [[6]]⟩
  | _ => none

/-- A DA view with no block at any height, used to instantiate the
bounded-retry theorem. -/
def emptyView : DaChain := fun _ => none


/-- The structural invariant tying the ledger, the pending snapshots and
the last applied height together: committed heights are exactly 1 to
`committedHeight`, pending heights continue contiguously above them, and
`lastApplied` is their top. -/
def RunnerInv (s : RunnerState) : Prop :=
  s.ledger.map Prod.fst = List.range' 1 s.committedHeight
  ∧ s.snapshots.map Snapshot.height
      = List.range' (s.committedHeight + 1) s.snapshots.length
  ∧ s.lastApplied = s.committedHeight + s.snapshots.length

/-- Chains well-formed for the DA contract: `getBlockAt(h)` only returns
blocks of height `h`. -/
def WfChain (v : DaChain) : Prop :=
  ∀ h b, v h = some b → b.height = h

def statePending2 : RunnerState :=
  { finalityDepth := 0, waitAttempts := 2, genesisRoot := [[1]],
    chainIndex := [(1, 1), (2, 2)],
    snapshots := [⟨1, 1, [[1], [9]]⟩, ⟨2, 2, [[1], [9], [8]]⟩],
    committedHeight := 0, ledger := [], headSlot := none,
    lastApplied := 2, misses := 0 }

-- THEOREMS

lemma lookupChange_erase (m : ChangeMap) (a : EvmAddress) :
    lookupChange (eraseChange m a) a = none := by
  induction m with
  | nil => rfl
  | cons p rest ih =>
    obtain ⟨b, c⟩ := p
    by_cases h : b = a
    · simpa [eraseChange, h] using ih
    · simp [eraseChange, h, lookupChange, ih]

lemma lookupChange_upsert_self (m : ChangeMap) (a : EvmAddress)
    (f : AccountChange → AccountChange) :
    lookupChange (upsert m a f) a = some (f ((lookupChange m a).getD {})) := by
  induction m with
  | nil => simp [upsert, lookupChange]
  | cons p rest ih =>
    by_cases h : p.1 = a
    · simp [upsert, h, lookupChange]
    · simp [upsert, h, lookupChange, ih]

lemma stepEntry_singleton (a : EvmAddress) (c : AccountChange) (e : JEntry)
    (hc : c.created = true) (he : touchesOnly a e = true) :
    ∃ c2 : AccountChange, stepEntry [(a, c)] e = [(a, c2)] ∧ c2.created = true := by
  cases e with
  | nonceChange b =>
    have hb : b = a := by simpa [touchesOnly] using he
    exact ⟨{ c with nonce_changed := true }, by simp [stepEntry, upsert, hb], hc⟩
  | balanceTransfer s d =>
    have hb : s = a ∧ d = a := by simpa [touchesOnly] using he
    exact ⟨{ c with balance_changed := true },
      by simp [stepEntry, upsert, hb.1, hb.2], hc⟩
  | storageChange b k =>
    have hb : b = a := by simpa [touchesOnly] using he
    exact ⟨{ c with storage_changes := insertKey c.storage_changes k },
      by simp [stepEntry, upsert, hb], hc⟩
  | codeChange b =>
    have hb : b = a := by simpa [touchesOnly] using he
    exact ⟨{ c with code_changed := true }, by simp [stepEntry, upsert, hb], hc⟩
  | accountCreated b =>
    have hb : b = a := by simpa [touchesOnly] using he
    exact ⟨{ c with created := true, nonce_changed := true },
      by simp [stepEntry, upsert, hb], rfl⟩
  | accountDestroyed b => simp [touchesOnly] at he
  | other => exact ⟨c, by simp [stepEntry], hc⟩

lemma foldl_singleton (es : List JEntry) (a : EvmAddress) (c : AccountChange)
    (hc : c.created = true) (hes : ∀ e ∈ es, touchesOnly a e = true) :
    ∃ c2 : AccountChange, es.foldl stepEntry [(a, c)] = [(a, c2)] ∧ c2.created = true := by
  induction es generalizing c with
  | nil => exact ⟨c, rfl, hc⟩
  | cons e rest ih =>
    obtain ⟨c1, hstep, hc1⟩ :=
      stepEntry_singleton a c e hc (hes e (List.mem_cons_self e rest))
    obtain ⟨c2, hrest, hc2⟩ :=
      ih c1 hc1 (fun x hx => hes x (List.mem_cons_of_mem e hx))
    exact ⟨c2, by simpa [List.foldl_cons, hstep] using hrest, hc2⟩

/-- C10: `decrease_caller_balance` reports `OutOfFunds` exactly when the
amount exceeds the caller's balance, leaving the balance unchanged in
that case; otherwise it reports no error and decreases the balance by
exactly the amount, with no wrap-around below zero. -/
theorem decrease_caller_balance_spec (ctx : EvmContext) (amount : Nat) :
    ((decrease_caller_balance ctx amount).1 = some InstrResult.outOfFunds ↔
        ctx.callerBalance < amount)
    ∧ (ctx.callerBalance < amount → (decrease_caller_balance ctx amount).2 = ctx)
    ∧ (amount ≤ ctx.callerBalance →
        (decrease_caller_balance ctx amount).1 = none
        ∧ (decrease_caller_balance ctx amount).2.callerBalance + amount
            = ctx.callerBalance) := by
  unfold decrease_caller_balance checkedSub
  by_cases h : amount ≤ ctx.callerBalance
  · simp [h, Nat.not_lt.mpr h, Nat.sub_add_cancel h]
  · simp [h, Nat.lt_of_not_le h]

theorem decrease_caller_balance_spec_witness :
    ((decrease_caller_balance ctxEmptyJournal 3).1 = none
      ∧ (decrease_caller_balance ctxEmptyJournal 3).2.callerBalance + 3
          = ctxEmptyJournal.callerBalance)
    ∧ (decrease_caller_balance ctxEmptyJournal 11).2 = ctxEmptyJournal :=
  ⟨(decrease_caller_balance_spec ctxEmptyJournal 3).2.2 (by decide),
   (decrease_caller_balance_spec ctxEmptyJournal 11).2.1 (by decide)⟩

/-- C8: for a non-error interpreter result, the hook charges the caller
exactly `l1_fee = diff_size * l1_fee_rate` computed over the last
journal, returning a custom EVM error when the balance is below the fee;
for an error result it charges nothing. -/
theorem post_execution_output_l1_fee (ctx : EvmContext) :
    (post_execution_output ctx true = .ok ctx)
    ∧ (calc_diff_size ctx.db (lastJournal ctx) * ctx.l1_fee_rate ≤ ctx.callerBalance →
        post_execution_output ctx false =
          .ok { ctx with callerBalance :=
                  ctx.callerBalance
                    - calc_diff_size ctx.db (lastJournal ctx) * ctx.l1_fee_rate })
    ∧ (ctx.callerBalance < calc_diff_size ctx.db (lastJournal ctx) * ctx.l1_fee_rate →
        post_execution_output ctx false =
          .error (.custom (calc_diff_size ctx.db (lastJournal ctx) * ctx.l1_fee_rate))) := by
  refine ⟨rfl, ?_, ?_⟩
  · intro h
    simp [post_execution_output, decrease_caller_balance, checkedSub, h]
  · intro h
    simp [post_execution_output, decrease_caller_balance, checkedSub, Nat.not_le.mpr h]

theorem post_execution_output_l1_fee_witness :
    (post_execution_output ctxEmptyJournal false =
        .ok { ctxEmptyJournal with callerBalance :=
                (ctxEmptyJournal.callerBalance
                  - calc_diff_size ctxEmptyJournal.db (lastJournal ctxEmptyJournal)
                      * ctxEmptyJournal.l1_fee_rate) })
    ∧ (post_execution_output ctxNonceJournal false =
        .error (.custom (calc_diff_size ctxNonceJournal.db (lastJournal ctxNonceJournal)
                  * ctxNonceJournal.l1_fee_rate))) :=
  ⟨(post_execution_output_l1_fee ctxEmptyJournal).2.1 (by decide),
   (post_execution_output_l1_fee ctxNonceJournal).2.2 (by decide)⟩

/-- C9: an account created and destroyed within the same journal is a
temporary account: processing its `AccountDestroyed` entry removes its
accumulated changes from the change map (the rest of the journal then
folds from the erased map), a create/touch/destroy sandwich contributes
zero bytes to the diff size, and recreating the same address after the
destroy accumulates changes afresh. -/
theorem calc_diff_size_temp_account (db : EvmDb) (j1 j2 es : List JEntry)
    (a : EvmAddress)
    (h1 : ((lookupChange (accountChangesOf j1) a).getD {}).created = true)
    (h2 : ∀ e ∈ es, touchesOnly a e = true) :
    accountChangesOf (j1 ++ JEntry.accountDestroyed a :: j2)
        = j2.foldl stepEntry (eraseChange (accountChangesOf j1) a)
    ∧ calc_diff_size db (JEntry.accountCreated a :: (es ++ [JEntry.accountDestroyed a])) = 0
    ∧ lookupChange
        (accountChangesOf (j1 ++ [JEntry.accountDestroyed a, JEntry.accountCreated a])) a
        = some { created := true, nonce_changed := true } := by
  have hsome : ∃ c : AccountChange,
      lookupChange (accountChangesOf j1) a = some c ∧ c.created = true := by
    cases hl : lookupChange (accountChangesOf j1) a with
    | none => rw [hl] at h1; simp [Option.getD] at h1
    | some c => exact ⟨c, rfl, by rw [hl] at h1; simpa using h1⟩
  obtain ⟨c, hl, hc⟩ := hsome
  have hdestroy :
      stepEntry (accountChangesOf j1) (JEntry.accountDestroyed a)
        = eraseChange (accountChangesOf j1) a := by
    simp [stepEntry, hl, hc]
  have hmain :
      accountChangesOf (j1 ++ JEntry.accountDestroyed a :: j2)
        = j2.foldl stepEntry (eraseChange (accountChangesOf j1) a) := by
    have h0 :
        accountChangesOf (j1 ++ JEntry.accountDestroyed a :: j2)
          = j2.foldl stepEntry
              (stepEntry (accountChangesOf j1) (JEntry.accountDestroyed a)) := by
      simp [accountChangesOf, List.foldl_append]
    rw [h0, hdestroy]
  refine ⟨hmain, ?_, ?_⟩
  · have hstart :
        stepEntry ([] : ChangeMap) (JEntry.accountCreated a)
          = [(a, { created := true, nonce_changed := true })] := by
      simp [stepEntry, upsert]
    obtain ⟨c2, hfold, hc2⟩ :=
      foldl_singleton es a { created := true, nonce_changed := true } rfl h2
    have hend : stepEntry [(a, c2)] (JEntry.accountDestroyed a) = [] := by
      simp [stepEntry, lookupChange, hc2, eraseChange]
    have hmap :
        accountChangesOf (JEntry.accountCreated a :: (es ++ [JEntry.accountDestroyed a]))
          = [] := by
      have h0 :
          accountChangesOf
              (JEntry.accountCreated a :: (es ++ [JEntry.accountDestroyed a]))
            = stepEntry (es.foldl stepEntry (stepEntry [] (JEntry.accountCreated a)))
                (JEntry.accountDestroyed a) := by
        simp [accountChangesOf, List.foldl_append]
      rw [h0, hstart, hfold, hend]
    simp [calc_diff_size, hmap]
  · have h3 :
        accountChangesOf (j1 ++ [JEntry.accountDestroyed a, JEntry.accountCreated a])
          = stepEntry (stepEntry (accountChangesOf j1) (JEntry.accountDestroyed a))
              (JEntry.accountCreated a) := by
      simp [accountChangesOf, List.foldl_append]
    rw [h3, hdestroy]
    simp [stepEntry, lookupChange_upsert_self, lookupChange_erase]

theorem calc_diff_size_temp_account_witness :
    accountChangesOf
        ([JEntry.accountCreated 7, JEntry.storageChange 7 5]
          ++ JEntry.accountDestroyed 7 :: [JEntry.nonceChange 3])
      = [JEntry.nonceChange 3].foldl stepEntry
          (eraseChange
            (accountChangesOf [JEntry.accountCreated 7, JEntry.storageChange 7 5]) 7)
    ∧ calc_diff_size dbEmpty
        (JEntry.accountCreated 7
          :: ([JEntry.storageChange 7 1, JEntry.balanceTransfer 7 7]
                ++ [JEntry.accountDestroyed 7])) = 0
    ∧ lookupChange
        (accountChangesOf
          ([JEntry.accountCreated 7, JEntry.storageChange 7 5]
            ++ [JEntry.accountDestroyed 7, JEntry.accountCreated 7])) 7
        = some { created := true, nonce_changed := true } :=
  calc_diff_size_temp_account dbEmpty
    [JEntry.accountCreated 7, JEntry.storageChange 7 5]
    [JEntry.nonceChange 3]
    [JEntry.storageChange 7 1, JEntry.balanceTransfer 7 7]
    7 (by decide) (by decide)

/-- C1: in the reorg scenario (main-chain blobs A, B, C, D at heights 1
to 4, a pre-announced fork replacing heights 3 to 5 with X, Y, Z after
height 2), the runner's final state root equals
`STF(genesis, [A, B, X, Y, Z])`, which differs from
`STF(genesis, [A, B, C, D])` and from the pre-run root. -/
theorem reorg_final_state_root :
    reorgRun.map get_state_root
        = Except.ok (stf_fold [gparams] [[blobA], [blobB], [blobX], [blobY], [blobZ]])
    ∧ stf_fold [gparams] [[blobA], [blobB], [blobX], [blobY], [blobZ]]
        ≠ stf_fold [gparams] [[blobA], [blobB], [blobC], [blobD]]
    ∧ stf_fold [gparams] [[blobA], [blobB], [blobX], [blobY], [blobZ]]
        ≠ get_state_root (initState gparams 4 2) :=
  ⟨rfl, by decide, by decide⟩

/-- C2: in the same scenario with finality window 4, after full
synchronization the ledger's head slot holds height 1 with root
`STF(genesis, [A])` — the only height past the finality window when the
fork resolved and hence the only committed one — while the unfinalized
tip root returned by `get_state_root` is `STF(genesis, [A, B, X, Y, Z])`. -/
theorem reorg_committed_head_slot :
    reorgRun.map (fun s => s.headSlot)
        = Except.ok (some (1, 1, stf_fold [gparams] [[blobA]]))
    ∧ reorgRun.map (fun s => s.ledger)
        = Except.ok [(1, stf_fold [gparams] [[blobA]])]
    ∧ reorgRun.map get_state_root
        = Except.ok (stf_fold [gparams] [[blobA], [blobB], [blobX], [blobY], [blobZ]]) :=
  ⟨rfl, rfl, rfl⟩

/-- C5: the runner is deterministic — the same genesis parameters and the
same sequence of DA views always produce the same outcome and in
particular the same final state root (the embedded runner is a pure
function of its inputs). -/
theorem runner_deterministic (g : Blob) (depth attempts : Nat) (views : List DaChain) :
    runnerRun views (initState g depth attempts)
        = runnerRun views (initState g depth attempts)
    ∧ (runnerRun views (initState g depth attempts)).map get_state_root
        = (runnerRun views (initState g depth attempts)).map get_state_root :=
  ⟨rfl, rfl⟩

/-- C3: a DA-reported fork whose lowest common ancestor lies at or below
the last finalized height is rejected with the fatal
`FinalityViolation` instead of being applied, so committed history is
never rewritten. -/
theorem finality_violation_rejected (view : DaChain) (s : RunnerState) (b : DaBlock)
    (hfetch : view (s.lastApplied + 1) = some b)
    (hdiv : divergesFrom { s with misses := 0 } b = true)
    (hlca : findLCA view s.chainIndex (b.height - 1) ≤ s.committedHeight) :
    runnerStep view s = .error RunnerErr.FinalityViolation := by
  simp [runnerStep, hfetch, hdiv, hlca]

theorem finality_violation_rejected_witness :
    runnerStep forkBelowFinal stateCommitted2 = .error RunnerErr.FinalityViolation :=
  finality_violation_rejected forkBelowFinal stateCommitted2 ⟨3, 103, 102, [[6]]⟩
    rfl (by decide) (by decide)

/-- C6: when the block at `lastApplied + 1` stays unavailable, `run()`
retries only up to the configured attempt bound; as soon as the number
of consecutive missed fetches exceeds it, the run terminates with the
fatal timeout error instead of looping on. -/
theorem run_bounded_retries (c : DaChain) (n : Nat) :
    ∀ s : RunnerState, c (s.lastApplied + 1) = none →
      s.waitAttempts < s.misses + n → 1 ≤ n →
      runnerRun (List.replicate n c) s = .error RunnerErr.Timeout := by
  induction n with
  | zero => intro s _ _ h1; omega
  | succ k ih =>
    intro s hmiss hn _
    rw [List.replicate_succ]
    by_cases hstop : s.waitAttempts < s.misses + 1
    · simp [runnerRun, runnerStep, hmiss, hstop]
    · have hk : 1 ≤ k := by omega
      have hstep : runnerStep c s = .ok { s with misses := s.misses + 1 } := by
        simp [runnerStep, hmiss, hstop]
      simp only [runnerRun, hstep]
      exact ih { s with misses := s.misses + 1 } hmiss (by simp only []; omega) hk

theorem run_bounded_retries_witness :
    runnerRun (List.replicate 3 emptyView) (initState [1] 0 2)
      = .error RunnerErr.Timeout :=
  run_bounded_retries emptyView 3 (initState [1] 0 2) rfl (by decide) (by decide)

lemma findLCA_le (view : DaChain) (ci : List (Nat × Nat)) :
    ∀ h, findLCA view ci h ≤ h := by
  intro h
  induction h with
  | zero => exact Nat.le_refl 0
  | succ i ih =>
    show findLCA view ci (i + 1) ≤ i + 1
    rw [findLCA]
    cases view (i + 1) with
    | none => exact Nat.le_succ_of_le ih
    | some b =>
      cases ciLookup ci (i + 1) with
      | none => exact Nat.le_succ_of_le ih
      | some v =>
        by_cases hb : b.bhash = v
        · simp [hb]
        · simp only [hb, if_false]
          exact Nat.le_succ_of_le ih

lemma commitScanGo_lastApplied (l : List Snapshot) :
    ∀ s : RunnerState, (commitScanGo s l).lastApplied = s.lastApplied := by
  induction l with
  | nil => intro s; rfl
  | cons sn rest ih =>
    intro s
    rw [commitScanGo]
    by_cases hc : sn.height + s.finalityDepth ≤ s.lastApplied
    · rw [if_pos hc, ih]
    · rw [if_neg hc]

lemma commitScanGo_inv (l : List Snapshot) :
    ∀ s : RunnerState,
      s.ledger.map Prod.fst = List.range' 1 s.committedHeight →
      l.map Snapshot.height = List.range' (s.committedHeight + 1) l.length →
      s.lastApplied = s.committedHeight + l.length →
      RunnerInv (commitScanGo s l) := by
  induction l with
  | nil =>
    intro s h1 h2 h3
    rw [commitScanGo]
    exact ⟨h1, by simp, by simpa using h3⟩
  | cons sn rest ih =>
    intro s h1 h2 h3
    have hlen : (sn :: rest).length = rest.length + 1 := rfl
    rw [hlen, List.range'_succ] at h2
    simp only [List.map_cons, List.cons.injEq] at h2
    obtain ⟨hsn, hrest⟩ := h2
    rw [commitScanGo]
    by_cases hc : sn.height + s.finalityDepth ≤ s.lastApplied
    · rw [if_pos hc]
      apply ih
      · simp only [List.map_append, List.map_cons, List.map_nil, h1, hsn]
        rw [List.range'_1_concat]
        simp [Nat.add_comm]
      · simpa [hsn] using hrest
      · simp only [hsn]
        omega
    · rw [if_neg hc]
      refine ⟨h1, ?_, by simpa using h3⟩
      simp only []
      rw [hlen, List.range'_succ]
      simp [hsn, hrest]

lemma applyBlock_inv (s : RunnerState) (b : DaBlock) (hInv : RunnerInv s)
    (hb : b.height = s.lastApplied + 1) : RunnerInv (applyBlock s b) := by
  obtain ⟨h1, h2, h3⟩ := hInv
  unfold applyBlock commitScan
  apply commitScanGo_inv
  · exact h1
  · simp only [List.map_append, List.map_cons, List.map_nil, h2, List.length_append,
      List.length_cons, List.length_nil]
    rw [hb, h3, List.range'_1_concat]
    simp [Nat.add_comm, Nat.add_assoc, Nat.add_left_comm]
  · simp only [List.length_append, List.length_cons, List.length_nil]
    omega

lemma applyBlock_lastApplied (s : RunnerState) (b : DaBlock) :
    (applyBlock s b).lastApplied = b.height := by
  unfold applyBlock commitScan
  rw [commitScanGo_lastApplied]

lemma replayGo_inv (v : DaChain) (hv : WfChain v) :
    ∀ (k h : Nat) (s s2 : RunnerState), RunnerInv s → h = s.lastApplied + 1 →
      replayGo v k h s = .ok s2 → RunnerInv s2 := by
  intro k
  induction k with
  | zero =>
    intro h s s2 hInv _ hrep
    rw [replayGo] at hrep
    cases hrep
    exact hInv
  | succ j ih =>
    intro h s s2 hInv hh hrep
    rw [replayGo] at hrep
    cases hb : v h with
    | none => rw [hb] at hrep; cases hrep
    | some b =>
      rw [hb] at hrep
      have hbh : b.height = h := hv h b hb
      refine ih (h + 1) (applyBlock s b) s2 ?_ ?_ hrep
      · exact applyBlock_inv s b hInv (by rw [hbh, hh])
      · rw [applyBlock_lastApplied, hbh]

lemma filter_height_le (lca : Nat) :
    ∀ (l : List Snapshot) (m : Nat),
      l.map Snapshot.height = List.range' m l.length →
      (l.filter (fun sn => decide (sn.height ≤ lca))).map Snapshot.height
        = List.range' m (min l.length (lca + 1 - m)) := by
  intro l
  induction l with
  | nil => intro m _; simp
  | cons sn rest ih =>
    intro m h
    have hlen : (sn :: rest).length = rest.length + 1 := rfl
    rw [hlen, List.range'_succ] at h
    simp only [List.map_cons, List.cons.injEq] at h
    obtain ⟨hsn, hrest⟩ := h
    by_cases hm : sn.height ≤ lca
    · have hkeep : (sn :: rest).filter (fun sn => decide (sn.height ≤ lca))
          = sn :: rest.filter (fun sn => decide (sn.height ≤ lca)) := by
        simp [List.filter, hm]
      rw [hkeep]
      simp only [List.map_cons, ih (m + 1) (by simpa [hsn] using hrest)]
      have e1 : min (sn :: rest).length (lca + 1 - m)
          = min rest.length (lca + 1 - (m + 1)) + 1 := by
        rw [hlen]; omega
      rw [e1, List.range'_succ, hsn]
    · have hdrop : (sn :: rest).filter (fun sn => decide (sn.height ≤ lca))
          = rest.filter (fun sn => decide (sn.height ≤ lca)) := by
        simp [List.filter, hm]
      have h0 : lca + 1 - (m + 1) = 0 := by omega
      have h1 : lca + 1 - m = 0 := by omega
      rw [hdrop, ih (m + 1) (by simpa [hsn] using hrest), h0, h1]
      simp

lemma runnerStep_inv (v : DaChain) (hv : WfChain v) (s s2 : RunnerState)
    (hInv : RunnerInv s) (hstep : runnerStep v s = .ok s2) : RunnerInv s2 := by
  obtain ⟨h1, h2, h3⟩ := hInv
  simp only [runnerStep] at hstep
  cases hfetch : v (s.lastApplied + 1) with
  | none =>
    rw [hfetch] at hstep
    by_cases ht : s.waitAttempts < s.misses + 1
    · rw [if_pos ht] at hstep; cases hstep
    · rw [if_neg ht] at hstep
      cases hstep
      exact ⟨h1, h2, h3⟩
  | some b =>
    rw [hfetch] at hstep
    have hbh : b.height = s.lastApplied + 1 := hv _ b hfetch
    simp only [] at hstep
    by_cases hdiv : divergesFrom { s with misses := 0 } b = true
    · rw [if_pos hdiv] at hstep
      by_cases hlca : findLCA v s.chainIndex (b.height - 1) ≤ s.committedHeight
      · rw [if_pos hlca] at hstep; cases hstep
      · rw [if_neg hlca] at hstep
        have hlcale : findLCA v s.chainIndex (b.height - 1) ≤ s.lastApplied := by
          have := findLCA_le v s.chainIndex (b.height - 1)
          omega
        have hcl : s.committedHeight < findLCA v s.chainIndex (b.height - 1) := by
          omega
        have hmap := filter_height_le (findLCA v s.chainIndex (b.height - 1))
          s.snapshots (s.committedHeight + 1) h2
        have hmin : min s.snapshots.length
            (findLCA v s.chainIndex (b.height - 1) + 1 - (s.committedHeight + 1))
            = findLCA v s.chainIndex (b.height - 1) - s.committedHeight := by
          omega
        rw [hmin] at hmap
        have hflen : (s.snapshots.filter
            (fun sn => decide (sn.height ≤ findLCA v s.chainIndex (b.height - 1)))).length
            = findLCA v s.chainIndex (b.height - 1) - s.committedHeight := by
          have hl := congrArg List.length hmap
          simpa [List.length_map, List.length_range'] using hl
        refine replayGo_inv v hv
          (b.height - findLCA v s.chainIndex (b.height - 1))
          (findLCA v s.chainIndex (b.height - 1) + 1)
          { s with
            chainIndex := s.chainIndex.filter
              (fun p => decide (p.1 ≤ findLCA v s.chainIndex (b.height - 1))),
            snapshots := s.snapshots.filter
              (fun sn => decide (sn.height ≤ findLCA v s.chainIndex (b.height - 1))),
            lastApplied := findLCA v s.chainIndex (b.height - 1),
            misses := 0 } s2 ⟨h1, ?_, ?_⟩ rfl hstep
        · simp only [hflen]
          exact hmap
        · simp only []
          rw [hflen]
          omega
    · rw [if_neg hdiv] at hstep
      cases hstep
      exact applyBlock_inv { s with misses := 0 } b ⟨h1, h2, h3⟩ hbh

lemma runnerRun_inv (views : List DaChain) :
    ∀ s s2 : RunnerState, (∀ v ∈ views, WfChain v) → RunnerInv s →
      runnerRun views s = .ok s2 → RunnerInv s2 := by
  induction views with
  | nil =>
    intro s s2 _ hInv h
    rw [runnerRun] at h
    cases h
    exact hInv
  | cons v rest ih =>
    intro s s2 hwf hInv h
    rw [runnerRun] at h
    cases hstep : runnerStep v s with
    | error e => rw [hstep] at h; cases h
    | ok s1 =>
      rw [hstep] at h
      exact ih s1 s2 (fun u hu => hwf u (List.mem_cons_of_mem v hu))
        (runnerStep_inv v (hwf v (List.mem_cons_self v rest)) s s1 hInv hstep) h

lemma chainOfBlobs_wf (bs : List Blob) : WfChain (chainOfBlobs bs) := by
  intro h b hb
  unfold chainOfBlobs at hb
  by_cases h0 : h = 0
  · rw [if_pos h0] at hb; cases hb
  · rw [if_neg h0] at hb
    cases hget : bs[h - 1]? with
    | none => rw [hget] at hb; cases hb
    | some blob => rw [hget] at hb; cases hb; rfl

/-- C7: ledger-store commits are monotonic — in any state reached by a
run from genesis over well-formed DA views, the heights written by
`recordCommit` (the first components of the ledger log, in write order)
are exactly 1, 2, …, `committedHeight`: strictly increasing with no
gaps, an unbroken prefix of the chain. -/
theorem ledger_monotonic (views : List DaChain) (g : Blob) (depth attempts : Nat)
    (sFinal : RunnerState)
    (hwf : ∀ v ∈ views, WfChain v)
    (hrun : runnerRun views (initState g depth attempts) = .ok sFinal) :
    sFinal.ledger.map Prod.fst = List.range' 1 sFinal.committedHeight
    ∧ (sFinal.ledger.map Prod.fst).Chain' (· < ·) := by
  have hInv0 : RunnerInv (initState g depth attempts) := ⟨rfl, rfl, rfl⟩
  have hInv := runnerRun_inv views _ _ hwf hInv0 hrun
  refine ⟨hInv.1, ?_⟩
  rw [hInv.1]
  exact (List.pairwise_lt_range' 1 sFinal.committedHeight 1 (by omega)).chain'

theorem ledger_monotonic_witness :
    (stateAfter [7] 2 [[5], [4]] 2).ledger.map Prod.fst
        = List.range' 1 (stateAfter [7] 2 [[5], [4]] 2).committedHeight
    ∧ ((stateAfter [7] 2 [[5], [4]] 2).ledger.map Prod.fst).Chain' (· < ·) :=
  ledger_monotonic [chainOfBlobs [[5], [4]], chainOfBlobs [[5], [4]]] [7] 0 2
    (stateAfter [7] 2 [[5], [4]] 2)
    (by
      intro v hv
      have hveq : v = chainOfBlobs [[5], [4]] := by simpa using hv
      rw [hveq]
      exact chainOfBlobs_wf [[5], [4]])
    rfl

lemma ciLookup_mapRange :
    ∀ (l : List Nat) (j : Nat),
      ciLookup (l.map fun i => (i, i)) j = if j ∈ l then some j else none := by
  intro l
  induction l with
  | nil => intro j; simp [ciLookup]
  | cons a rest ih =>
    intro j
    by_cases h : a = j
    · simp [ciLookup, h]
    · have h2 : ¬(j = a) := fun hh => h hh.symm
      simp [ciLookup, h, h2, ih]

lemma ciSet_mapRange_append (l : List Nat) (j v : Nat) (hj : j ∉ l) :
    ciSet (l.map fun i => (i, i)) j v = (l.map fun i => (i, i)) ++ [(j, v)] := by
  induction l with
  | nil => rfl
  | cons a rest ih =>
    have ha : a ≠ j := fun hh => hj (hh ▸ List.mem_cons_self a rest)
    have hrest : j ∉ rest := fun hh => hj (List.mem_cons_of_mem a hh)
    simp [ciSet, ha, ih hrest]

lemma chainOfBlobs_at (bs : List Blob) (k : Nat) (hk : k < bs.length) :
    chainOfBlobs bs (k + 1) = some ⟨k + 1, k + 1, k, [bs[k]]⟩ := by
  unfold chainOfBlobs
  rw [if_neg (Nat.succ_ne_zero k)]
  have hg : bs[k + 1 - 1]? = some bs[k] := by
    simp [List.getElem?_eq_getElem hk]
  rw [hg]
  rfl

lemma get_state_root_stateAfter (g : Blob) (w : Nat) (bs : List Blob) (k : Nat) :
    get_state_root (stateAfter g w bs k) = g :: bs.take k := by
  cases k with
  | zero => rfl
  | succ j => rfl

lemma divergesFrom_stateAfter (g : Blob) (w : Nat) (bs : List Blob) (k : Nat)
    (blk : DaBlock) (hh : blk.height = k + 1) (hp : blk.parentHash = k) :
    divergesFrom (stateAfter g w bs k) blk = false := by
  cases k with
  | zero => simp [divergesFrom, hh, stateAfter, ciLookup]
  | succ j =>
    have e1 : ciLookup ((List.range' 1 (j + 1)).map fun i => (i, i)) (j + 2) = none := by
      rw [ciLookup_mapRange]
      rw [if_neg]
      simp [List.mem_range']
      omega
    have e2 : ciLookup ((List.range' 1 (j + 1)).map fun i => (i, i)) (j + 1)
        = some (j + 1) := by
      rw [ciLookup_mapRange]
      rw [if_pos]
      simp [List.mem_range']
      exact ⟨j, by omega, by omega⟩
    simp [divergesFrom, hh, hp, stateAfter, e1, e2]

lemma applyBlock_stateAfter (g : Blob) (w : Nat) (bs : List Blob) (k : Nat)
    (hk : k < bs.length) :
    applyBlock (stateAfter g w bs k) ⟨k + 1, k + 1, k, [bs[k]]⟩
      = stateAfter g w bs (k + 1) := by
  have hroot : get_state_root (stateAfter g w bs k) = g :: bs.take k :=
    get_state_root_stateAfter g w bs k
  have hci : ciSet ((List.range' 1 k).map fun i => (i, i)) (k + 1) (k + 1)
      = (List.range' 1 (k + 1)).map fun i => (i, i) := by
    rw [ciSet_mapRange_append _ _ _ (by simp [List.mem_range']; omega)]
    rw [List.range'_1_concat]
    simp [Nat.add_comm]
  have htake : bs.take k ++ [bs[k]] = bs.take (k + 1) := by
    rw [List.take_succ]
    simp [List.getElem?_eq_getElem hk]
  have hledg : ((List.range' 1 k).map fun i => (i, g :: bs.take i))
        ++ [(k + 1, g :: bs.take (k + 1))]
      = (List.range' 1 (k + 1)).map fun i => (i, g :: bs.take i) := by
    rw [List.range'_1_concat]
    simp [Nat.add_comm]
  simp only [stateAfter] at hroot
  unfold applyBlock commitScan
  simp only [stateAfter, List.nil_append, hroot, hci, stf_apply]
  rw [commitScanGo]
  rw [if_pos (by simp)]
  rw [commitScanGo]
  simp only [List.append_nil]
  rw [show (g :: bs.take k) ++ [bs[k]] = g :: bs.take (k + 1) by
    rw [← htake]; rfl]
  simp [hledg, Nat.succ_ne_zero]

lemma instant_step (g : Blob) (w : Nat) (bs : List Blob) (k : Nat)
    (hk : k < bs.length) :
    runnerStep (chainOfBlobs bs) (stateAfter g w bs k)
      = .ok (stateAfter g w bs (k + 1)) := by
  have hfetch : chainOfBlobs bs ((stateAfter g w bs k).lastApplied + 1)
      = some ⟨k + 1, k + 1, k, [bs[k]]⟩ := chainOfBlobs_at bs k hk
  have hnodiv : divergesFrom { stateAfter g w bs k with misses := 0 }
      ⟨k + 1, k + 1, k, [bs[k]]⟩ = false := divergesFrom_stateAfter g w bs k _ rfl rfl
  have hmiss0 : ({ stateAfter g w bs k with misses := 0 } : RunnerState)
      = stateAfter g w bs k := rfl
  simp only [runnerStep, hfetch]
  rw [hmiss0] at hnodiv
  simp only [hmiss0, hnodiv, Bool.false_eq_true, if_false]
  rw [applyBlock_stateAfter g w bs k hk]

lemma instant_run (g : Blob) (w : Nat) (bs : List Blob) :
    ∀ (j k : Nat), k + j = bs.length →
      runnerRun (List.replicate j (chainOfBlobs bs)) (stateAfter g w bs k)
        = .ok (stateAfter g w bs (k + j)) := by
  intro j
  induction j with
  | zero => intro k _; simp [runnerRun]
  | succ i ih =>
    intro k hk
    rw [List.replicate_succ, runnerRun, instant_step g w bs k (by omega)]
    simp only []
    rw [ih (k + 1) (by omega)]
    rw [show k + 1 + i = k + (i + 1) from by omega]

lemma stf_fold_singletons (g : Blob) (bs : List Blob) :
    stf_fold [g] (bs.map fun b => [b]) = g :: bs := by
  suffices h : ∀ r : StateRoot, stf_fold r (bs.map fun b => [b]) = r ++ bs by
    simpa using h [g]
  induction bs with
  | nil => intro r; simp [stf_fold]
  | cons b rest ih =>
    intro r
    simp only [List.map_cons, stf_fold, List.foldl_cons]
    have := ih (stf_apply r [b])
    simp only [stf_fold] at this
    rw [this]
    simp [stf_apply]

lemma commitScanGo_spec (d t : Nat) (l : List Snapshot) :
    ∀ s : RunnerState, s.finalityDepth = d → s.lastApplied = t →
      (commitScanGo s l).snapshots
          = l.dropWhile (fun sn => decide (sn.height + d ≤ t))
      ∧ (commitScanGo s l).ledger
          = s.ledger ++ (l.takeWhile (fun sn => decide (sn.height + d ≤ t))).map
              (fun sn => (sn.height, sn.root)) := by
  induction l with
  | nil => intro s _ _; rw [commitScanGo]; simp
  | cons sn rest ih =>
    intro s hd ht
    rw [commitScanGo]
    by_cases hc : sn.height + d ≤ t
    · rw [if_pos (show sn.height + s.finalityDepth ≤ s.lastApplied by
        rw [hd, ht]; exact hc)]
      have h2 := ih { s with
        committedHeight := sn.height,
        ledger := s.ledger ++ [(sn.height, sn.root)],
        headSlot := some (sn.height, sn.bhash, sn.root) } hd ht
      refine ⟨?_, ?_⟩
      · rw [h2.1, List.dropWhile_cons]
        simp [hc]
      · rw [h2.2, List.takeWhile_cons]
        simp [hc]
    · rw [if_neg (show ¬ sn.height + s.finalityDepth ≤ s.lastApplied by
        rw [hd, ht]; exact hc)]
      refine ⟨?_, ?_⟩
      · rw [List.dropWhile_cons]
        simp [hc]
      · rw [List.takeWhile_cons]
        simp [hc]

/-- C4: after every apply, the commit scan commits exactly the maximal
eligible prefix of the oldest pending snapshots (those whose height
satisfies the finality rule), appending them to the ledger and leaving
the rest pending; in particular, under instant finality (depth 0),
syncing blocks 1..n leaves the head slot at height n with root
`STF(genesis, blobs 1..n)`, equal to the final state root. -/
theorem commit_scan_instant_finality (s : RunnerState) (g : Blob) (w : Nat)
    (bs : List Blob) (hbs : bs ≠ []) :
    ((commitScan s).snapshots
        = s.snapshots.dropWhile
            (fun sn => decide (sn.height + s.finalityDepth ≤ s.lastApplied))
      ∧ (commitScan s).ledger
        = s.ledger ++ (s.snapshots.takeWhile
            (fun sn => decide (sn.height + s.finalityDepth ≤ s.lastApplied))).map
              (fun sn => (sn.height, sn.root)))
    ∧ runnerRun (List.replicate bs.length (chainOfBlobs bs)) (initState g 0 w)
        = .ok (stateAfter g w bs bs.length)
    ∧ (stateAfter g w bs bs.length).headSlot
        = some (bs.length, bs.length, stf_fold [g] (bs.map fun b => [b]))
    ∧ get_state_root (stateAfter g w bs bs.length)
        = stf_fold [g] (bs.map fun b => [b]) := by
  refine ⟨commitScanGo_spec s.finalityDepth s.lastApplied s.snapshots s rfl rfl, ?_, ?_, ?_⟩
  · have h0 : initState g 0 w = stateAfter g w bs 0 := rfl
    rw [h0, instant_run g w bs bs.length 0 (by omega), Nat.zero_add]
  · have hne : bs.length ≠ 0 := fun h => hbs (List.eq_nil_of_length_eq_zero h)
    simp only [stateAfter, if_neg hne, stf_fold_singletons, List.take_length]
  · rw [get_state_root_stateAfter, List.take_length, stf_fold_singletons]

theorem commit_scan_instant_finality_witness :
    ((commitScan statePending2).snapshots
        = statePending2.snapshots.dropWhile
            (fun sn => decide (sn.height + statePending2.finalityDepth
              ≤ statePending2.lastApplied))
      ∧ (commitScan statePending2).ledger
        = statePending2.ledger ++ (statePending2.snapshots.takeWhile
            (fun sn => decide (sn.height + statePending2.finalityDepth
              ≤ statePending2.lastApplied))).map
              (fun sn => (sn.height, sn.root)))
    ∧ runnerRun (List.replicate ([[5], [4]] : List Blob).length (chainOfBlobs [[5], [4]]))
          (initState [7] 0 2)
        = .ok (stateAfter [7] 2 [[5], [4]] ([[5], [4]] : List Blob).length)
    ∧ (stateAfter [7] 2 [[5], [4]] ([[5], [4]] : List Blob).length).headSlot
        = some (([[5], [4]] : List Blob).length, ([[5], [4]] : List Blob).length,
            stf_fold [[7]] (([[5], [4]] : List Blob).map fun b => [b]))
    ∧ get_state_root (stateAfter [7] 2 [[5], [4]] ([[5], [4]] : List Blob).length)
        = stf_fold [[7]] (([[5], [4]] : List Blob).map fun b => [b]) :=
  commit_scan_instant_finality statePending2 [7] 2 [[5], [4]] (by decide)

